import Mathlib

/-!
Shallow embedding of the movie-rating-predictor helpers
(`build_rating_matrix`, `create_learning_matrices`, `make_submission`
from `randomforest.py`) and proofs of the specification claims.

Matrices are embedded as `List (List Int)` (row-major dense content);
the sparse CSR/CSC representations of the source differ only in storage,
not in the entry content the claims speak about.  Ratings are embedded
as `Int`: the claims use only storage, retrieval and the duplicate-sum
of the COO-to-CSR conversion, never fractional arithmetic.
-/

set_option autoImplicit false

namespace MovieRating

/-- Number of rows of the embedded matrix (scipy `shape[0]`). -/
def nrows (R : List (List Int)) : Nat := R.length

/-- Number of columns of the embedded matrix (scipy `shape[1]`);
for the uniform matrices the code builds this is the common row width. -/
def ncols (R : List (List Int)) : Nat := (R.headD []).length

/-- `R` has the shape `(nr, nc)`: `nr` rows, each of width `nc`. -/
def IsMatrix (R : List (List Int)) (nr nc : Nat) : Prop :=
  R.length = nr ∧ ∀ row ∈ R, row.length = nc

instance (R : List (List Int)) (nr nc : Nat) : Decidable (IsMatrix R nr nc) := by
  unfold IsMatrix; infer_instance

/-- Row `u` of `R` (scipy `R[u, :]`). -/
def rowOf (R : List (List Int)) (u : Nat) : List Int := R.getD u []

/-- Column `m` of `R` (scipy `R[:, m]`), read as a flat vector. -/
def colOf (R : List (List Int)) (m : Nat) : List Int :=
  R.map (fun row => row.getD m 0)

/-- Maximum of a list of naturals, 0 for the empty list: how
`scipy.sparse.coo_matrix` infers each dimension from the index arrays. -/
def listMax (l : List Nat) : Nat := l.foldl max 0

/-- Sum of the ratings of all triplets for the pair `(u, m)`: the
COO-to-CSR conversion of `scipy` adds duplicate coordinates. -/
def entrySum (ts : List (Nat × Nat × Int)) (u m : Nat) : Int :=
  (ts.filter (fun t => t.1 == u && t.2.1 == m)).foldl (fun a t => a + t.2.2) 0

/-- `build_rating_matrix` (randomforest.py, lines 46-69): splits the
triplets into row indices, column indices and data, and builds
`sparse.coo_matrix((data, (rows, cols))).tocsr()`.  The shape is
inferred as `(max row + 1, max col + 1)`; scipy refuses to infer a
shape from empty index arrays, hence `none` on the empty input.
Duplicate coordinates are summed by the CSR conversion. -/
def build_rating_matrix (user_movie_rating_triplets : List (Nat × Nat × Int)) :
    Option (List (List Int)) :=
  match user_movie_rating_triplets with
  | [] => none
  | ts =>
    some ((List.range (listMax (ts.map Prod.fst) + 1)).map (fun u =>
      (List.range (listMax (ts.map (fun t => t.2.1)) + 1)).map (fun m =>
        entrySum ts u m)))

/-- Entry `R[u, m]` of the embedded matrix. -/
def entry (R : List (List Int)) (u m : Nat) : Int := (R.getD u []).getD m 0

/-- CSR conversion: changes only the storage format, not the content. -/
def tocsr (R : List (List Int)) : List (List Int) := R

/-- CSC conversion: changes only the storage format, not the content. -/
def tocsc (R : List (List Int)) : List (List Int) := R

/-- Fancy row indexing `R[idxs]` of scipy: checks every index against
the row count, then gathers the rows in order (duplicates fetched
independently); any out-of-range index raises. -/
def fancyRows (R : List (List Int)) (idxs : List Nat) :
    Option (List (List Int)) :=
  if idxs.all (fun u => decide (u < nrows R)) then
    some (idxs.map (fun u => rowOf R u))
  else
    none

/-- Fancy column indexing followed by transpose,
`R[:, idxs].transpose()` of scipy: checks every index against the
column count, then gathers the columns in order, each gathered column
becoming a row; any out-of-range index raises. -/
def fancyColsT (R : List (List Int)) (idxs : List Nat) :
    Option (List (List Int)) :=
  if idxs.all (fun m => decide (m < ncols R)) then
    some (idxs.map (fun m => colOf R m))
  else
    none

/-- `create_learning_matrices` (randomforest.py, lines 72-109): rebinds
the local to `tocsr`, gathers the user rows by fancy indexing, rebinds
to `tocsc`, gathers the movie columns and transposes, and horizontally
stacks the two blocks (`sparse.hstack`), which appends the blocks
row-for-row. -/
def create_learning_matrices (rating_matrix : List (List Int))
    (user_movie_pairs : List (Nat × Nat)) : Option (List (List Int)) :=
  let rm := tocsr rating_matrix
  match fancyRows rm (user_movie_pairs.map Prod.fst) with
  | none => none
  | some user_features =>
    match fancyColsT (tocsc rm) (user_movie_pairs.map Prod.snd) with
    | none => none
    | some movie_features =>
      some (List.zipWith (fun a b => a ++ b) user_features movie_features)

/-- The caller's view of one call to `create_learning_matrices`: the
state of the argument matrix after the call, paired with the returned
value.  The source only rebinds a local name to the results of the
non-mutating `tocsr` / `tocsc` / slicing / `hstack` operations, so the
argument object is left as it was. -/
def create_learning_matrices_call (rating_matrix : List (List Int))
    (user_movie_pairs : List (Nat × Nat)) :
    List (List Int) × Option (List (List Int)) :=
  (rating_matrix, create_learning_matrices rating_matrix user_movie_pairs)

/-- A Python float as `make_submission` consumes it: its NaN flag
(`np.isnan`) and its printed form (`str`). -/
structure PyFloat where
  nan : Bool
  str : String
deriving DecidableEq

/-- The fixed header line of the submission file. -/
def subHeader : String := "\"USER_ID_MOVIE_ID\",\"PREDICTED_RATING\""

/-- One data line of the submission file:
the Python format string is `{:d}_{:d},{}` plus the newline. -/
def formatLine (u m : Nat) (p : PyFloat) : String :=
  Nat.repr u ++ "_" ++ Nat.repr m ++ "," ++ p.str

/-- The writing loop of `make_submission`: for each (pair, prediction)
of the zip, raise before writing anything if the prediction is NaN,
else write its line.  Returns the data lines written and whether the
loop raised. -/
def writeLoop : List ((Nat × Nat) × PyFloat) → List String × Bool
  | [] => ([], false)
  | (q, p) :: rest =>
    if p.nan then ([], true)
    else
      let r := writeLoop rest
      (formatLine q.1 q.2 p :: r.1, r.2)

/-- `make_submission` (randomforest.py, lines 131-173), restricted to
the file content the claims speak about: the header line is written
first, then the loop over `zip(user_movie_ids, y_predict)`.  Returns
the lines present in the file when the call returns or raises, and
whether it raised (`ValueError` on a NaN prediction). -/
def make_submission (y_predict : List PyFloat)
    (user_movie_ids : List (Nat × Nat)) : List String × Bool :=
  let r := writeLoop (user_movie_ids.zip y_predict)
  (subHeader :: r.1, r.2)

/-! ### Helper lemmas -/

theorem foldl_max_init (l : List Nat) (a : Nat) : a ≤ l.foldl max a := by
  induction l generalizing a with
  | nil => exact Nat.le_refl a
  | cons b l ih =>
    exact Nat.le_trans (Nat.le_max_left a b) (by simpa using ih (max a b))

theorem foldl_max_le {x : Nat} :
    ∀ (l : List Nat) (a : Nat), x ∈ l → x ≤ l.foldl max a := by
  intro l
  induction l with
  | nil => intro a h; cases h
  | cons b l ih =>
    intro a h
    rcases List.mem_cons.1 h with rfl | h
    · exact Nat.le_trans (Nat.le_max_right a x) (foldl_max_init l (max a x))
    · simpa using ih (max a b) h

theorem foldl_max_eq_or_mem :
    ∀ (l : List Nat) (a : Nat), l.foldl max a = a ∨ l.foldl max a ∈ l := by
  intro l
  induction l with
  | nil => intro a; left; rfl
  | cons b l ih =>
    intro a
    rcases ih (max a b) with h | h
    · rcases max_choice a b with hab | hab
      · left; rw [List.foldl_cons, h, hab]
      · right; rw [List.foldl_cons, h, hab]; exact List.mem_cons_self _ _
    · right; exact List.mem_cons_of_mem _ (by simpa using h)

theorem le_listMax {l : List Nat} {x : Nat} (hx : x ∈ l) : x ≤ listMax l :=
  foldl_max_le l 0 hx

theorem listMax_mem {l : List Nat} (h : l ≠ []) : listMax l ∈ l := by
  rcases foldl_max_eq_or_mem l 0 with h0 | hmem
  · cases l with
    | nil => exact absurd rfl h
    | cons b l =>
      have hb : b ≤ listMax (b :: l) := le_listMax (List.mem_cons_self b l)
      have : b = 0 := Nat.le_antisymm (h0 ▸ hb) (Nat.zero_le b)
      rw [listMax, h0, this]
      exact List.mem_cons_self _ _
  · exact hmem

theorem build_rating_matrix_eq_some {ts : List (Nat × Nat × Int)} (h : ts ≠ []) :
    build_rating_matrix ts =
      some ((List.range (listMax (ts.map Prod.fst) + 1)).map (fun u =>
        (List.range (listMax (ts.map (fun t => t.2.1)) + 1)).map (fun m =>
          entrySum ts u m))) := by
  cases ts with
  | nil => exact absurd rfl h
  | cons t ts => rfl

theorem build_rating_matrix_ne_nil {ts : List (Nat × Nat × Int)}
    {R : List (List Int)} (h : build_rating_matrix ts = some R) : ts ≠ [] := by
  intro hnil
  rw [hnil] at h
  exact Option.noConfusion h

theorem build_shape {ts : List (Nat × Nat × Int)} {R : List (List Int)}
    (h : build_rating_matrix ts = some R) :
    R.length = listMax (ts.map Prod.fst) + 1 ∧
      ∀ row ∈ R, row.length = listMax (ts.map (fun t => t.2.1)) + 1 := by
  rw [build_rating_matrix_eq_some (build_rating_matrix_ne_nil h)] at h
  have hR := Option.some.inj h
  subst hR
  constructor
  · simp
  · intro row hrow
    rcases List.mem_map.1 hrow with ⟨u, _, hu⟩
    rw [← hu]
    simp

theorem entry_build {ts : List (Nat × Nat × Int)} {R : List (List Int)}
    {u m : Nat} (h : build_rating_matrix ts = some R)
    (hu : u < listMax (ts.map Prod.fst) + 1)
    (hm : m < listMax (ts.map (fun t => t.2.1)) + 1) :
    entry R u m = entrySum ts u m := by
  rw [build_rating_matrix_eq_some (build_rating_matrix_ne_nil h)] at h
  have hR := Option.some.inj h
  subst hR
  have h1 : (List.map (fun u => List.map (fun m => entrySum ts u m)
        (List.range (listMax (ts.map (fun t => t.2.1)) + 1)))
        (List.range (listMax (ts.map Prod.fst) + 1))).getD u [] =
      List.map (fun m => entrySum ts u m)
        (List.range (listMax (ts.map (fun t => t.2.1)) + 1)) := by
    rw [List.getD_eq_getElem?_getD, List.getElem?_map, List.getElem?_range hu]
    rfl
  rw [entry, h1, List.getD_eq_getElem?_getD, List.getElem?_map,
    List.getElem?_range hm]
  rfl

theorem entrySum_eq_map_sum (ts : List (Nat × Nat × Int)) (u m : Nat) :
    entrySum ts u m =
      ((ts.filter (fun t => t.1 == u && t.2.1 == m)).map (fun t => t.2.2)).sum := by
  rw [entrySum, List.sum_eq_foldl, List.foldl_map]

theorem filter_pair_eq_singleton {ts : List (Nat × Nat × Int)}
    (huniq : ts.Pairwise (fun s t => (s.1, s.2.1) ≠ (t.1, t.2.1)))
    {t : Nat × Nat × Int} (ht : t ∈ ts) :
    ts.filter (fun s => s.1 == t.1 && s.2.1 == t.2.1) = [t] := by
  induction ts with
  | nil => cases ht
  | cons s ts ih =>
    rcases List.pairwise_cons.1 huniq with ⟨hs, huniq'⟩
    rcases List.mem_cons.1 ht with rfl | ht'
    · rw [List.filter_cons, if_pos (by simp)]
      have hnil : ts.filter (fun s => s.1 == t.1 && s.2.1 == t.2.1) = [] := by
        rw [List.filter_eq_nil_iff]
        intro a ha hpa
        simp only [Bool.and_eq_true, beq_iff_eq] at hpa
        exact hs a ha (by rw [hpa.1, hpa.2])
      rw [hnil]
    · rw [List.filter_cons, if_neg, ih huniq' ht']
      simp only [Bool.and_eq_true, beq_iff_eq, not_and]
      intro h1 h2
      exact hs t ht' (by rw [h1, h2])

theorem ncols_of_isMatrix {R : List (List Int)} {nr nc : Nat}
    (hM : IsMatrix R nr nc) (hR : R ≠ []) : ncols R = nc := by
  cases R with
  | nil => exact absurd rfl hR
  | cons r R' => exact hM.2 r (List.mem_cons_self _ _)

theorem create_eq_some_iff (R : List (List Int)) (pairs : List (Nat × Nat))
    (X : List (List Int)) :
    create_learning_matrices R pairs = some X ↔
      ((∀ p ∈ pairs, p.1 < nrows R ∧ p.2 < ncols R) ∧
        X = pairs.map (fun p => rowOf R p.1 ++ colOf R p.2)) := by
  simp only [create_learning_matrices, fancyRows, fancyColsT, tocsr, tocsc]
  by_cases h1 : ∀ p ∈ pairs, p.1 < nrows R
  · have c1 : ((pairs.map Prod.fst).all fun u => decide (u < nrows R)) = true := by
      rw [List.all_eq_true]
      intro x hx
      rcases List.mem_map.1 hx with ⟨p, hp, hpx⟩
      exact decide_eq_true (hpx ▸ h1 p hp)
    rw [if_pos c1]
    by_cases h2 : ∀ p ∈ pairs, p.2 < ncols R
    · have c2 : ((pairs.map Prod.snd).all fun m => decide (m < ncols R)) = true := by
        rw [List.all_eq_true]
        intro x hx
        rcases List.mem_map.1 hx with ⟨p, hp, hpx⟩
        exact decide_eq_true (hpx ▸ h2 p hp)
      rw [if_pos c2]
      simp only [List.map_map, List.zipWith_map_left, List.zipWith_map_right,
        List.zipWith_same, Option.some.injEq, Function.comp]
      constructor
      · intro hX
        exact ⟨fun p hp => ⟨h1 p hp, h2 p hp⟩, hX.symm⟩
      · intro h
        exact h.2.symm
    · have c2 : ((pairs.map Prod.snd).all fun m => decide (m < ncols R)) = false := by
        rw [Bool.eq_false_iff]
        intro hc
        exact h2 (fun p hp => of_decide_eq_true
          (List.all_eq_true.1 hc p.2 (List.mem_map.2 ⟨p, hp, rfl⟩)))
      rw [if_neg (by rw [c2]; exact Bool.false_ne_true)]
      simp only [false_iff, not_and]
      constructor
      · intro h; exact Option.noConfusion h
      · intro h
        exact absurd (fun p hp => (h.1 p hp).2) h2
  · have c1 : ((pairs.map Prod.fst).all fun u => decide (u < nrows R)) = false := by
      rw [Bool.eq_false_iff]
      intro hc
      exact h1 (fun p hp => of_decide_eq_true
        (List.all_eq_true.1 hc p.1 (List.mem_map.2 ⟨p, hp, rfl⟩)))
    rw [if_neg (by rw [c1]; exact Bool.false_ne_true)]
    constructor
    · intro h; exact Option.noConfusion h
    · intro h
      exact absurd (fun p hp => (h.1 p hp).1) h1

theorem writeLoop_zip (ids : List (Nat × Nat)) (y : List PyFloat)
    (h : y.length = ids.length) :
    writeLoop (ids.zip y) =
      (((ids.zip y).take (y.findIdx (fun p => p.nan))).map
          (fun x => formatLine x.1.1 x.1.2 x.2),
        y.any (fun p => p.nan)) := by
  induction ids generalizing y with
  | nil =>
    cases y with
    | nil => rfl
    | cons p y => exact absurd h (by simp)
  | cons q ids ih =>
    cases y with
    | nil => exact absurd h (by simp)
    | cons p y =>
      have h' : y.length = ids.length := by simpa using h
      rw [List.zip_cons_cons]
      by_cases hp : p.nan
      · simp [writeLoop, hp, List.findIdx_cons]
      · have hw : writeLoop ((q, p) :: ids.zip y) =
            (formatLine q.1 q.2 p :: (writeLoop (ids.zip y)).1,
              (writeLoop (ids.zip y)).2) := by
          simp only [writeLoop, if_neg hp]
        rw [hw, ih y h', List.findIdx_cons]
        simp [hp]

theorem ncols_build {ts : List (Nat × Nat × Int)} {R : List (List Int)}
    (h : build_rating_matrix ts = some R) :
    ncols R = listMax (ts.map (fun t => t.2.1)) + 1 := by
  have hshape := build_shape h
  cases R with
  | nil => exact absurd hshape.1 (by simp)
  | cons r R' => exact hshape.2 r (List.mem_cons_self _ _)

/-! ### Claim theorems -/

/-- C2: for every non-empty sequence of rating triplets in which each
(user, movie) pair occurs at most once, `build_rating_matrix` returns a
matrix `R` with `R[u, m] = r` for every triplet `(u, m, r)` of the
input, and `R[u, m] = 0` for every in-bounds `(u, m)` not present. -/
theorem rating_matrix_entries (ts : List (Nat × Nat × Int)) (hne : ts ≠ [])
    (huniq : ts.Pairwise (fun s t => (s.1, s.2.1) ≠ (t.1, t.2.1))) :
    ∃ R, build_rating_matrix ts = some R ∧
      (∀ t ∈ ts, entry R t.1 t.2.1 = t.2.2) ∧
      (∀ u m, u < nrows R → m < ncols R →
        (∀ t ∈ ts, ¬(t.1 = u ∧ t.2.1 = m)) → entry R u m = 0) := by
  obtain ⟨R, hR⟩ : ∃ R, build_rating_matrix ts = some R :=
    ⟨_, build_rating_matrix_eq_some hne⟩
  refine ⟨R, hR, ?_, ?_⟩
  · intro t ht
    have hu : t.1 < listMax (ts.map Prod.fst) + 1 :=
      Nat.lt_succ_of_le (le_listMax (List.mem_map.2 ⟨t, ht, rfl⟩))
    have hm : t.2.1 < listMax (ts.map (fun s => s.2.1)) + 1 :=
      Nat.lt_succ_of_le (le_listMax (List.mem_map.2 ⟨t, ht, rfl⟩))
    rw [entry_build hR hu hm, entrySum, filter_pair_eq_singleton huniq ht]
    simp
  · intro u m hu hm habs
    have hshape := build_shape hR
    have hu' : u < listMax (ts.map Prod.fst) + 1 := by
      rw [← hshape.1]; exact hu
    have hm' : m < listMax (ts.map (fun t => t.2.1)) + 1 := by
      rw [← ncols_build hR]; exact hm
    rw [entry_build hR hu' hm', entrySum]
    have hfil : ts.filter (fun t => t.1 == u && t.2.1 == m) = [] := by
      rw [List.filter_eq_nil_iff]
      intro a ha hpa
      simp only [Bool.and_eq_true, beq_iff_eq] at hpa
      exact habs a ha hpa
    rw [hfil]
    rfl

/-- C2 witness: the theorem applied to the triplets
`[(0,0,5),(1,1,3)]`, whose pairs are unique. -/
theorem rating_matrix_entries_witness :
    ∃ R, build_rating_matrix [(0, 0, (5 : Int)), (1, 1, 3)] = some R ∧
      (∀ t ∈ [(0, 0, (5 : Int)), (1, 1, 3)], entry R t.1 t.2.1 = t.2.2) ∧
      (∀ u m, u < nrows R → m < ncols R →
        (∀ t ∈ [(0, 0, (5 : Int)), (1, 1, 3)], ¬(t.1 = u ∧ t.2.1 = m)) →
        entry R u m = 0) :=
  rating_matrix_entries [(0, 0, (5 : Int)), (1, 1, 3)] (by decide) (by decide)

/-- C3 counterexample: on the duplicate triplets `[(0,0,1),(0,0,2)]`
the built entry at `(0, 0)` is `3`, the sum, not the last write `2`. -/
theorem last_write_wins_cex :
    build_rating_matrix [(0, 0, (1 : Int)), (0, 0, 2)] = some [[3]] ∧
      entry [[3]] 0 0 ≠ 2 := by decide

/-- C3 (amended): when the input contains multiple triplets for the same
(user, movie) pair, the entry `R[u, m]` equals the SUM of the ratings of
all such triplets (scipy's COO-to-CSR conversion is additive on
duplicate coordinates), not the last one. -/
theorem duplicate_pairs_sum (ts : List (Nat × Nat × Int))
    (t : Nat × Nat × Int) (ht : t ∈ ts) :
    ∃ R, build_rating_matrix ts = some R ∧
      entry R t.1 t.2.1 =
        ((ts.filter (fun s => s.1 == t.1 && s.2.1 == t.2.1)).map
          (fun s => s.2.2)).sum := by
  have hne : ts ≠ [] := by
    intro h
    rw [h] at ht
    cases ht
  obtain ⟨R, hR⟩ : ∃ R, build_rating_matrix ts = some R :=
    ⟨_, build_rating_matrix_eq_some hne⟩
  refine ⟨R, hR, ?_⟩
  have hu : t.1 < listMax (ts.map Prod.fst) + 1 :=
    Nat.lt_succ_of_le (le_listMax (List.mem_map.2 ⟨t, ht, rfl⟩))
  have hm : t.2.1 < listMax (ts.map (fun s => s.2.1)) + 1 :=
    Nat.lt_succ_of_le (le_listMax (List.mem_map.2 ⟨t, ht, rfl⟩))
  rw [entry_build hR hu hm, entrySum_eq_map_sum]

/-- C3 witness: the amended theorem applied to the duplicate triplets
`[(0,0,1),(0,0,2)]`: the entry is the sum `1 + 2 = 3`. -/
theorem duplicate_pairs_sum_witness :
    ∃ R, build_rating_matrix [(0, 0, (1 : Int)), (0, 0, 2)] = some R ∧
      entry R 0 0 =
        (([(0, 0, (1 : Int)), (0, 0, 2)].filter
            (fun s => s.1 == 0 && s.2.1 == 0)).map (fun s => s.2.2)).sum :=
  duplicate_pairs_sum [(0, 0, (1 : Int)), (0, 0, 2)] (0, 0, 1) (by decide)

/-- C7: when no shape is supplied, the matrix built from a non-empty
triplet sequence has exactly (max user id + 1) rows and
(max movie id + 1) columns: every id fits, and both bounds are attained
by some triplet of the input. -/
theorem dims_from_max_ids (ts : List (Nat × Nat × Int)) (R : List (List Int))
    (h : build_rating_matrix ts = some R) :
    ((∀ t ∈ ts, t.1 + 1 ≤ nrows R) ∧ (∃ t ∈ ts, t.1 + 1 = nrows R)) ∧
      ((∀ t ∈ ts, t.2.1 + 1 ≤ ncols R) ∧ (∃ t ∈ ts, t.2.1 + 1 = ncols R)) := by
  have hne := build_rating_matrix_ne_nil h
  have hnr : nrows R = listMax (ts.map Prod.fst) + 1 := (build_shape h).1
  have hnc := ncols_build h
  refine ⟨⟨?_, ?_⟩, ?_, ?_⟩
  · intro t ht
    rw [hnr]
    exact Nat.succ_le_succ (le_listMax (List.mem_map.2 ⟨t, ht, rfl⟩))
  · have hmem : listMax (ts.map Prod.fst) ∈ ts.map Prod.fst :=
      listMax_mem (by simpa using hne)
    rcases List.mem_map.1 hmem with ⟨t, ht, hteq⟩
    exact ⟨t, ht, by rw [hnr, hteq]⟩
  · intro t ht
    rw [hnc]
    exact Nat.succ_le_succ (le_listMax (List.mem_map.2 ⟨t, ht, rfl⟩))
  · have hmem : listMax (ts.map (fun t => t.2.1)) ∈ ts.map (fun t => t.2.1) :=
      listMax_mem (by simpa using hne)
    rcases List.mem_map.1 hmem with ⟨t, ht, hteq⟩
    exact ⟨t, ht, by rw [hnc, hteq]⟩

/-- C7 witness: the theorem applied to the triplets `[(0,0,5),(1,1,3)]`,
whose built matrix is 2 by 2. -/
theorem dims_from_max_ids_witness :
    ((∀ t ∈ [(0, 0, (5 : Int)), (1, 1, 3)], t.1 + 1 ≤ nrows [[5, 0], [0, 3]]) ∧
        (∃ t ∈ [(0, 0, (5 : Int)), (1, 1, 3)], t.1 + 1 = nrows [[5, 0], [0, 3]])) ∧
      ((∀ t ∈ [(0, 0, (5 : Int)), (1, 1, 3)], t.2.1 + 1 ≤ ncols [[5, 0], [0, 3]]) ∧
        (∃ t ∈ [(0, 0, (5 : Int)), (1, 1, 3)], t.2.1 + 1 = ncols [[5, 0], [0, 3]])) :=
  dims_from_max_ids [(0, 0, (5 : Int)), (1, 1, 3)] [[5, 0], [0, 3]] (by decide)

/-- C1: for every rating matrix `R` of shape `(nr, nc)` and every
query-pair sequence whose indices are in bounds,
`create_learning_matrices` returns a matrix with exactly one row per
query pair, each of width `nr + nc`, and row `i` is the concatenation
of row `u_i` of `R` followed by column `m_i` of `R`. -/
theorem feature_matrix_spec (R : List (List Int)) (pairs : List (Nat × Nat))
    (nr nc : Nat) (hM : IsMatrix R nr nc)
    (hb : ∀ p ∈ pairs, p.1 < nr ∧ p.2 < nc) :
    ∃ X, create_learning_matrices R pairs = some X ∧
      X.length = pairs.length ∧
      (∀ row ∈ X, row.length = nr + nc) ∧
      (∀ i, i < pairs.length →
        X.getD i [] =
          rowOf R (pairs.getD i (0, 0)).1 ++ colOf R (pairs.getD i (0, 0)).2) := by
  have hrows : ∀ p ∈ pairs, p.1 < nrows R := by
    intro p hp
    rw [nrows, hM.1]
    exact (hb p hp).1
  have hcols : ∀ p ∈ pairs, p.2 < ncols R := by
    intro p hp
    have hR : R ≠ [] := by
      intro hnil
      have h1 := hrows p hp
      rw [hnil] at h1
      exact Nat.not_lt_zero _ h1
    rw [ncols_of_isMatrix hM hR]
    exact (hb p hp).2
  refine ⟨pairs.map (fun p => rowOf R p.1 ++ colOf R p.2),
    (create_eq_some_iff R pairs _).2 ⟨fun p hp => ⟨hrows p hp, hcols p hp⟩, rfl⟩,
    by simp, ?_, ?_⟩
  · intro row hrow
    rcases List.mem_map.1 hrow with ⟨p, hp, hrow⟩
    rw [← hrow, List.length_append]
    have hlt : p.1 < R.length := hrows p hp
    have h1 : (rowOf R p.1).length = nc := by
      rw [rowOf, List.getD_eq_getElem _ _ hlt]
      exact hM.2 _ (List.getElem_mem hlt)
    have h2 : (colOf R p.2).length = nr := by
      rw [colOf, List.length_map, hM.1]
    rw [h1, h2]
    exact Nat.add_comm nc nr
  · intro i hi
    have hi' : i < (pairs.map (fun p => rowOf R p.1 ++ colOf R p.2)).length := by
      simpa using hi
    rw [List.getD_eq_getElem _ _ hi', List.getElem_map,
      List.getD_eq_getElem _ _ hi]

/-- C1 witness: the theorem applied to the 2-by-2 matrix
`[[5,0],[0,3]]` and the query pairs `[(0,1),(1,0)]`. -/
theorem feature_matrix_spec_witness :
    ∃ X, create_learning_matrices [[5, 0], [0, 3]] [(0, 1), (1, 0)] = some X ∧
      X.length = [((0 : Nat), (1 : Nat)), (1, 0)].length ∧
      (∀ row ∈ X, row.length = 2 + 2) ∧
      (∀ i, i < [((0 : Nat), (1 : Nat)), (1, 0)].length →
        X.getD i [] =
          rowOf [[5, 0], [0, 3]] ([((0 : Nat), (1 : Nat)), (1, 0)].getD i (0, 0)).1 ++
            colOf [[5, 0], [0, 3]] ([((0 : Nat), (1 : Nat)), (1, 0)].getD i (0, 0)).2) :=
  feature_matrix_spec [[5, 0], [0, 3]] [(0, 1), (1, 0)] 2 2 (by decide) (by decide)

/-- C4: for every rating matrix of shape `(nr, nc)` and every query-pair
sequence containing a user index at or above `nr` or a movie index at or
above `nc`, `create_learning_matrices` fails with an out-of-range
indexing error (no value is returned, so no index is clipped or wrapped
to a different row or column). -/
theorem oob_pair_fails (R : List (List Int)) (pairs : List (Nat × Nat))
    (nr nc : Nat) (hM : IsMatrix R nr nc)
    (hbad : ∃ p ∈ pairs, nr ≤ p.1 ∨ nc ≤ p.2) :
    create_learning_matrices R pairs = none := by
  cases hX : create_learning_matrices R pairs with
  | none => rfl
  | some X =>
    rcases (create_eq_some_iff R pairs X).1 hX with ⟨hb, _⟩
    rcases hbad with ⟨p, hp, hor⟩
    have hR : R ≠ [] := by
      intro hnil
      have h1 := (hb p hp).1
      rw [nrows, hnil] at h1
      exact Nat.not_lt_zero _ h1
    rcases hor with hge | hge
    · have h1 := (hb p hp).1
      rw [nrows, hM.1] at h1
      exact absurd h1 (Nat.not_lt.2 hge)
    · have h2 := (hb p hp).2
      rw [ncols_of_isMatrix hM hR] at h2
      exact absurd h2 (Nat.not_lt.2 hge)

/-- C4 witness: a user index 2 and a movie index 2 are both out of range
for the 2-by-2 matrix, and each makes the call fail. -/
theorem oob_pair_fails_witness :
    create_learning_matrices [[5, 0], [0, 3]] [(2, 0)] = none ∧
      create_learning_matrices [[5, 0], [0, 3]] [(0, 2)] = none :=
  ⟨oob_pair_fails [[5, 0], [0, 3]] [(2, 0)] 2 2 (by decide) (by decide),
    oob_pair_fails [[5, 0], [0, 3]] [(0, 2)] 2 2 (by decide) (by decide)⟩

/-- C5: the rating matrix built from the triplets `{(0,0,5),(1,1,3)}`
is the 2-by-2 matrix `[[5,0],[0,3]]`, and the query pairs
`[(0,1),(1,0)]` yield exactly the feature rows `[5,0,0,3]` and
`[0,3,5,0]`, in that order. -/
theorem example_two_by_two :
    build_rating_matrix [(0, 0, (5 : Int)), (1, 1, 3)] = some [[5, 0], [0, 3]] ∧
      create_learning_matrices [[5, 0], [0, 3]] [(0, 1), (1, 0)] =
        some [[5, 0, 0, 3], [0, 3, 5, 0]] := by decide

/-- C6: permuting the query-pair sequence permutes the rows of the
feature matrix by the same permutation: row `i` of the output depends
only on query pair `i`. -/
theorem permuted_queries_permute_rows (R : List (List Int))
    (pairs : List (Nat × Nat)) (X : List (List Int))
    (σ : Equiv.Perm (Fin pairs.length))
    (h : create_learning_matrices R pairs = some X) :
    create_learning_matrices R
        (List.ofFn fun i => pairs.getD (σ i).val (0, 0)) =
      some (List.ofFn fun i => X.getD (σ i).val []) := by
  rcases (create_eq_some_iff R pairs X).1 h with ⟨hb, hX⟩
  apply (create_eq_some_iff R _ _).2
  constructor
  · intro p hp
    rcases (List.mem_ofFn _ _).1 hp with ⟨i, hi⟩
    have hlt : (σ i).val < pairs.length := (σ i).isLt
    have hmem : pairs.getD (σ i).val (0, 0) ∈ pairs := by
      rw [List.getD_eq_getElem _ _ hlt]
      exact List.getElem_mem hlt
    rw [← hi]
    exact hb _ hmem
  · rw [hX, List.map_ofFn]
    refine congrArg List.ofFn (funext fun i => ?_)
    have hlt : (σ i).val < pairs.length := (σ i).isLt
    have hltX : (σ i).val <
        (pairs.map (fun p => rowOf R p.1 ++ colOf R p.2)).length := by
      rw [List.length_map]
      exact hlt
    rw [Function.comp_apply, List.getD_eq_getElem _ _ hltX,
      List.getElem_map, List.getD_eq_getElem _ _ hlt]

/-- C6 witness: the theorem applied with the transposition of the two
query pairs `[(0,1),(1,0)]` over the 2-by-2 matrix. -/
theorem permuted_queries_permute_rows_witness :
    create_learning_matrices [[5, 0], [0, 3]]
        (List.ofFn fun i : Fin 2 =>
          [((0 : Nat), (1 : Nat)), (1, 0)].getD ((Equiv.swap 0 1) i).val (0, 0)) =
      some (List.ofFn fun i : Fin 2 =>
        [[(5 : Int), 0, 0, 3], [0, 3, 5, 0]].getD ((Equiv.swap 0 1) i).val []) :=
  permuted_queries_permute_rows [[5, 0], [0, 3]] [(0, 1), (1, 0)]
    [[5, 0, 0, 3], [0, 3, 5, 0]] (show Equiv.Perm (Fin 2) from Equiv.swap 0 1)
    (by decide)

/-- C9: `create_learning_matrices` is pure and read-only on its
rating-matrix argument: after a call the matrix (hence each of its
entries) is unchanged, and a second call on the matrix left by the
first yields the same result. -/
theorem create_learning_matrices_pure (R : List (List Int))
    (pairs : List (Nat × Nat)) :
    (create_learning_matrices_call R pairs).1 = R ∧
      (∀ u m, entry (create_learning_matrices_call R pairs).1 u m = entry R u m) ∧
      (create_learning_matrices_call
          ((create_learning_matrices_call R pairs).1) pairs).2 =
        (create_learning_matrices_call R pairs).2 :=
  ⟨rfl, fun _ _ => rfl, rfl⟩

theorem make_submission_eq (y : List PyFloat) (ids : List (Nat × Nat))
    (h : y.length = ids.length) :
    make_submission y ids =
      (subHeader :: ((ids.zip y).take (y.findIdx (fun p => p.nan))).map
          (fun x => formatLine x.1.1 x.1.2 x.2),
        y.any (fun p => p.nan)) := by
  simp only [make_submission]
  rw [writeLoop_zip ids y h]

/-- C8: with as many predictions as (user, movie) pairs and no NaN
among them, `make_submission` writes the fixed header line followed by
exactly one line per prediction, line `i+1` being
`{user_i}_{movie_i},{prediction_i}` in input order; with a NaN among
the predictions it raises, and the file holds only the lines that
precede the first NaN, so the NaN prediction itself is never written. -/
theorem submission_file_format (y : List PyFloat) (ids : List (Nat × Nat))
    (hlen : y.length = ids.length) :
    ((∀ p ∈ y, p.nan = false) →
      make_submission y ids =
        (subHeader :: (ids.zip y).map (fun x => formatLine x.1.1 x.1.2 x.2),
          false) ∧
      (make_submission y ids).1.length = 1 + ids.length) ∧
    ((∃ p ∈ y, p.nan = true) →
      (make_submission y ids).2 = true ∧
      (make_submission y ids).1.length = 1 + y.findIdx (fun p => p.nan) ∧
      y.findIdx (fun p => p.nan) < y.length) := by
  have hzlen : (ids.zip y).length = y.length := by
    rw [List.length_zip, ← hlen, Nat.min_self]
  constructor
  · intro hnn
    have hfi : y.findIdx (fun p => p.nan) = y.length :=
      List.findIdx_eq_length.mpr (by simpa using hnn)
    have hany : y.any (fun p => p.nan) = false :=
      List.any_eq_false.mpr (by simpa using hnn)
    have htake : (ids.zip y).take (y.findIdx (fun p => p.nan)) = ids.zip y := by
      apply List.take_of_length_le
      rw [hzlen, hfi]
    constructor
    · rw [make_submission_eq y ids hlen, htake, hany]
    · rw [make_submission_eq y ids hlen, htake]
      simp only [List.length_cons, List.length_map, hzlen, hlen]
      exact Nat.add_comm _ 1
  · intro hex
    have hfi : y.findIdx (fun p => p.nan) < y.length :=
      List.findIdx_lt_length_of_exists hex
    have hany : y.any (fun p => p.nan) = true := List.any_eq_true.mpr hex
    refine ⟨?_, ?_, hfi⟩
    · rw [make_submission_eq y ids hlen, hany]
    · rw [make_submission_eq y ids hlen]
      simp only [List.length_cons, List.length_map, List.length_take, hzlen]
      rw [Nat.min_eq_left (Nat.le_of_lt hfi), Nat.add_comm]

/-- C8 witness: the theorem applied to the spec's example, predictions
`4.2` and `3.7` for the pairs `(0,0)` and `(1,1)`, none NaN. -/
theorem submission_file_format_witness :
    make_submission [⟨false, "4.2"⟩, ⟨false, "3.7"⟩] [(0, 0), (1, 1)] =
      (subHeader ::
          ([((0 : Nat), (0 : Nat)), (1, 1)].zip
              [⟨false, "4.2"⟩, ⟨false, "3.7"⟩]).map
            (fun x => formatLine x.1.1 x.1.2 x.2),
        false) ∧
    (make_submission [⟨false, "4.2"⟩, ⟨false, "3.7"⟩] [(0, 0), (1, 1)]).1.length =
      1 + [((0 : Nat), (0 : Nat)), (1, 1)].length :=
  (submission_file_format [⟨false, "4.2"⟩, ⟨false, "3.7"⟩] [(0, 0), (1, 1)]
    rfl).1 (by decide)

/-- C10: `make_submission` is not atomic on error: when the first NaN
prediction sits at position `i`, the call raises and the file at that
moment holds the header line plus exactly the formatted lines of the
predictions at positions `0` to `i-1`. -/
theorem partial_file_on_nan (y : List PyFloat) (ids : List (Nat × Nat))
    (i : Nat) (hlen : y.length = ids.length)
    (hfirst : y.findIdx (fun p => p.nan) = i) (hi : i < y.length) :
    (make_submission y ids).2 = true ∧
      (make_submission y ids).1 =
        subHeader :: ((ids.zip y).take i).map
          (fun x => formatLine x.1.1 x.1.2 x.2) := by
  have hw : y.findIdx (fun p => p.nan) < y.length := by
    rw [hfirst]
    exact hi
  have hnan : (y.get ⟨y.findIdx (fun p => p.nan), hw⟩).nan = true :=
    List.findIdx_getElem
  have hany : y.any (fun p => p.nan) = true :=
    List.any_eq_true.mpr ⟨_, List.get_mem y _ _, hnan⟩
  constructor
  · rw [make_submission_eq y ids hlen, hany]
  · rw [make_submission_eq y ids hlen, hfirst]

/-- C10 witness: the theorem applied to a NaN at position 1: the file
holds the header and only the line for position 0, and the call
raises. -/
theorem partial_file_on_nan_witness :
    (make_submission [⟨false, "4.2"⟩, ⟨true, "nan"⟩] [(0, 0), (1, 1)]).2 = true ∧
      (make_submission [⟨false, "4.2"⟩, ⟨true, "nan"⟩] [(0, 0), (1, 1)]).1 =
        subHeader ::
          (([((0 : Nat), (0 : Nat)), (1, 1)].zip
              [⟨false, "4.2"⟩, ⟨true, "nan"⟩]).take 1).map
            (fun x => formatLine x.1.1 x.1.2 x.2) :=
  partial_file_on_nan [⟨false, "4.2"⟩, ⟨true, "nan"⟩] [(0, 0), (1, 1)] 1 rfl
    (by decide) (by decide)

end MovieRating
